import Mathlib

/-!
# ChartGPU viewport/resampling pipeline — verification development

Shallow embedding of the ChartGPU viewport/resampling core:

* the zoom-window state (`setRange` / `getViewport`, minimum-span enforcement),
* the touch gesture handlers of `createInsideZoom.ts` (single-finger pan and
  two-finger pinch, transcribed from the implementation blocks in
  `docs/plans/2026-02-25-mobile-touch-gestures-plan.md`),
* the render-request coalescer (`RenderScheduler`),
* the sorted-range slicer (lower/upper bound index search), and
* the downsampling engine (`sampleByBuckets` / `sampleSeriesDataPoints`
  from `src/data/sampleSeriesDataPoints.ts`, shown in `docs/api/scales.md`).

JavaScript numbers are modelled as rationals; where the code branches on
`Number.isFinite`, a value is modelled as `Option ℚ` (`none` standing for a
non-finite value — `NaN` or `±Infinity`, which the code never distinguishes).
-/

namespace ChartGPU

/-- A JavaScript number as used by the sampling/gesture code: `some q` is a
finite value, `none` is any non-finite value (`NaN`, `Infinity`,
`-Infinity`); the code only ever tests these via `Number.isFinite`. -/
abbrev JSNum := Option ℚ

/-- `clamp(v, lo, hi) = Math.max(lo, Math.min(hi, v))`, the clamping helper
used throughout the interaction code. -/
def clampQ (v lo hi : ℚ) : ℚ := max lo (min hi v)

/-! ## Viewport state (`createZoomState`) -/

/-- A viewport range in percent space: `{ start, end }`. (`stop` stands for
the source's `end`, a reserved word here.) -/
structure ViewportRange where
  start : ℚ
  stop : ℚ
deriving DecidableEq, Repr

/-- `DEFAULT_MIN_SPAN` from `src/interaction/createZoomState.ts`: the zoom
window span is constrained to a minimum of 0.5% of the data range. -/
def DEFAULT_MIN_SPAN : ℚ := 1 / 2

/-- Modelled from the spec: `setRange` of `createZoomState`
(`src/interaction/createZoomState.ts` is not among the provided sources;
only its documented contract is). Per the spec it clamps both bounds into
`[0,100]`, reorders if `start > end`, then enforces the minimum span by
symmetrically expanding around the requested center when the requested span
is below `DEFAULT_MIN_SPAN`; when the expansion would exceed `[0,100]` the
window is shifted inward instead of clamped-and-shrunk, so the resulting
span is exactly `DEFAULT_MIN_SPAN` whenever the request was narrower. -/
def setRange (reqStart reqStop : ℚ) : ViewportRange :=
  let s := clampQ reqStart 0 100
  let e := clampQ reqStop 0 100
  let lo := min s e
  let hi := max s e
  if hi - lo < DEFAULT_MIN_SPAN then
    let c := (lo + hi) / 2
    let s2 := c - DEFAULT_MIN_SPAN / 2
    let e2 := c + DEFAULT_MIN_SPAN / 2
    if s2 < 0 then ⟨0, DEFAULT_MIN_SPAN⟩
    else if e2 > 100 then ⟨100 - DEFAULT_MIN_SPAN, 100⟩
    else ⟨s2, e2⟩
  else ⟨lo, hi⟩

/-- `getRange()` returns a consistent snapshot of the stored range. -/
def getViewport (r : ViewportRange) : ViewportRange := r

/-! ## Touch gestures (`createInsideZoom.ts`)

Transcribed from the implementation blocks in
`docs/plans/2026-02-25-mobile-touch-gestures-plan.md` (Tasks 2 and 3), which
hold the repository's single-finger pan and pinch-to-zoom handler code. -/

/-- A call issued to the zoom state by the gesture handlers. -/
inductive ZoomCall where
  | zoomIn (center factor : ℚ)
  | zoomOut (center factor : ℚ)
  | pan (delta : ℚ)
deriving DecidableEq, Repr

/-- Whether a call is a `zoomIn` call. -/
def ZoomCall.isZoomIn : ZoomCall → Bool
  | .zoomIn _ _ => true
  | _ => false

/-- Whether a call is a `zoomOut` call. -/
def ZoomCall.isZoomOut : ZoomCall → Bool
  | .zoomOut _ _ => true
  | _ => false

/-- The pinch reference scalars of `createInsideZoom`:
`let previousPinchDist = 0; let previousPinchMidX = NaN;` (`none` models the
`NaN` initialization). Reset whenever a pointer is added to or removed from
`activePointers`. -/
structure PinchState where
  previousPinchDist : ℚ
  previousPinchMidX : JSNum
deriving DecidableEq, Repr

/-- The reset reference state (`previousPinchDist = 0`,
`previousPinchMidX = NaN`). -/
def resetPinchState : PinchState := ⟨0, none⟩

/-- The environment a pinch step reads: `rect.left` from
`getBoundingClientRect()`, the derived `gridLeft`, `plotWidthCss` from
`lastPointer`, and the current zoom range from `zoomState.getRange()`. -/
structure PinchEnv where
  rectLeft : ℚ
  gridLeft : ℚ
  plotWidthCss : ℚ
  rangeStart : ℚ
  rangeStop : ℚ
deriving DecidableEq, Repr

/-- The pinch zoom center: the contact midpoint mapped into percent space,
`clamp(start + clamp((midX - rect.left - gridLeft) / plotWidthCss, 0, 1) *
span, 0, 100)`. -/
def pinchCenterPct (env : PinchEnv) (midX : ℚ) : ℚ :=
  let r := clampQ ((midX - env.rectLeft - env.gridLeft) / env.plotWidthCss) 0 1
  let span := env.rangeStop - env.rangeStart
  clampQ (env.rangeStart + r * span) 0 100

/-- The zoom call branch of the pinch handler:
`if (factor > 1) zoomState.zoomOut(centerPct, factor); else if (factor < 1)
zoomState.zoomIn(centerPct, 1 / factor);`. -/
def pinchZoomCalls (env : PinchEnv) (factor midX : ℚ) : List ZoomCall :=
  if factor > 1 then [ZoomCall.zoomOut (pinchCenterPct env midX) factor]
  else if factor < 1 then [ZoomCall.zoomIn (pinchCenterPct env midX) (1 / factor)]
  else []

/-- The simultaneous pan branch of the pinch handler, driven by the midpoint
shift between frames. -/
def pinchPanCalls (env : PinchEnv) (st : PinchState) (midX : ℚ) : List ZoomCall :=
  if env.plotWidthCss > 0 then
    match st.previousPinchMidX with
    | some prevMidX =>
      if midX - prevMidX ≠ 0 ∧ env.rangeStop - env.rangeStart > 0 then
        if -((midX - prevMidX) / env.plotWidthCss) * (env.rangeStop - env.rangeStart) ≠ 0 then
          [ZoomCall.pan (-((midX - prevMidX) / env.plotWidthCss) *
            (env.rangeStop - env.rangeStart))]
        else []
      else []
    | none => []
  else []

/-- One execution of the two-pointer branch of the touch `pointermove`
handler (`activePointers.size === 2`). `currentDist` is
`Math.hypot(p1.x - p2.x, p1.y - p2.y)` and `midX` is `(p1.x + p2.x) / 2`,
computed from the updated pointer positions; the step consumes these derived
scalars. Returns the calls issued to the zoom state (in order) and the
updated reference scalars. -/
def pinchStep (env : PinchEnv) (st : PinchState) (currentDist midX : ℚ) :
    List ZoomCall × PinchState :=
  (if st.previousPinchDist > 0 ∧ currentDist > 0 then
      pinchZoomCalls env (st.previousPinchDist / currentDist) midX ++
        pinchPanCalls env st midX
    else [],
   ⟨currentDist, some midX⟩)

/-- One observed pinch frame: the environment at that step, the current
inter-contact distance, and the contact midpoint x. -/
structure PinchFrame where
  env : PinchEnv
  dist : ℚ
  midX : ℚ
deriving DecidableEq, Repr

/-- Runs a sequence of pinch frames through `pinchStep`, threading the
reference scalars, and collects every call issued to the zoom state. -/
def pinchRun (st : PinchState) : List PinchFrame → List ZoomCall
  | [] => []
  | f :: rest =>
    let out := pinchStep f.env st f.dist f.midX
    out.1 ++ pinchRun out.2 rest

/-- JavaScript subtraction on possibly non-finite numbers: if either operand
is non-finite the result is non-finite (`NaN`/`±Infinity`), otherwise it is
the exact difference. -/
def jsSub (a b : JSNum) : JSNum :=
  match a, b with
  | some x, some y => some (x - y)
  | _, _ => none

/-! ## Frame coalescer (`RenderScheduler`) -/

/-- Modelled from the spec: the `RenderScheduler` state
(`src/core/RenderScheduler.ts` is not among the provided sources; only its
documented contract is). `running` — whether the loop was started and not
stopped — and `pending` — whether a wake-up (a single future
animation-frame callback) is currently scheduled. -/
structure SchedulerState where
  running : Bool
  pending : Bool
deriving DecidableEq, Repr

/-- A started scheduler with no pending wake-up and no request yet. -/
def startedScheduler : SchedulerState := ⟨true, false⟩

/-- Modelled from the spec: `requestRender()` — schedules at most one
pending wake-up; additional requests before it fires are no-ops; inert when
the scheduler is not running. -/
def request (s : SchedulerState) : SchedulerState :=
  if s.running then { s with pending := true } else s

/-- `n` successive `request()` calls. -/
def requestN : ℕ → SchedulerState → SchedulerState
  | 0, s => s
  | n + 1, s => requestN n (request s)

/-- Modelled from the spec: one display-refresh tick. If a wake-up is
pending, the pending flag is cleared *before* the recomputation callback
runs (so a callback-triggered re-request schedules a genuinely new wake-up
for the next tick), and exactly one recomputation pass runs in this tick;
otherwise zero passes run. `callbackRequests` is the number of `request()`
calls the recomputation pass itself performs. Returns the number of passes
run in this tick and the state after the tick. -/
def tick (s : SchedulerState) (callbackRequests : ℕ) : ℕ × SchedulerState :=
  if s.pending then (1, requestN callbackRequests { s with pending := false })
  else (0, s)

/-! ## Range slicer -/

/-- Modelled from the spec: the slicer's lower-bound search over the x
coordinates of a verified non-decreasing series — the first index with
`x ≥ m` (the list length when there is none). The binary-search
implementation (`lowerBoundTimestamp` in
`src/core/createRenderCoordinator.ts`) is not among the provided sources;
only its documented contract is. -/
def lowerBound (xs : List ℚ) (m : ℚ) : ℕ :=
  match xs with
  | [] => 0
  | x :: rest => if m ≤ x then 0 else lowerBound rest m + 1

/-- Modelled from the spec: the slicer's upper-bound search — the first
index with `x > m`. -/
def upperBound (xs : List ℚ) (m : ℚ) : ℕ :=
  match xs with
  | [] => 0
  | x :: rest => if m < x then 0 else upperBound rest m + 1

/-- Modelled from the spec: the sorted-path slicer returns the half-open
index range `[lowerBound min, upperBound max)` over the series. -/
def sliceRange (xs : List ℚ) (mn mx : ℚ) : ℕ × ℕ :=
  (lowerBound xs mn, upperBound xs mx)

/-- One execution of the single-pointer branch of the touch `pointermove`
handler (`activePointers.size === 1`), from Task 2 of the plan. `prev` is
`activePointers.get(e.pointerId)` (previous tracked position),
`clientX` the event x, `plotWidthCss` is `lastPointer?.plotWidthCss ?? 0`
(`none` models a non-finite stored width), and `rangeStart`/`rangeStop` come
from `zoomState.getRange()`. Returns `some deltaPct` exactly when the
handler reaches `zoomState.pan(deltaPct)`, `none` when any guard returns
early. -/
def touchPanStep (prev : Option (JSNum × JSNum)) (clientX : JSNum)
    (plotWidthCss : JSNum) (rangeStart rangeStop : JSNum) : Option ℚ :=
  match prev with
  | none => none
  | some (px, _py) =>
    match jsSub clientX px with
    | none => none
    | some dxCss =>
      if dxCss = 0 then none
      else
        match plotWidthCss with
        | none => none
        | some w =>
          if w ≤ 0 then none
          else
            match jsSub rangeStop rangeStart with
            | none => none
            | some span =>
              if span = 0 then none
              else if -(dxCss / w) * span = 0 then none
              else some (-(dxCss / w) * span)

/-! ## Downsampling engine (`sampleSeriesDataPoints.ts`, source shown in
`docs/api/scales.md`) -/

/-- A series data point as the sampling code reads it through `getXY` /
`getSize`: an x/y pair and an optional magnitude (`size`) field. Tuple
(`[x, y, size?]`) and object (`{x, y, size?}`) representations are accessed
identically through those helpers and are collapsed here. `size = none`
means the field is absent; `size = some none` means present but
non-finite (excluded by the `Number.isFinite(size)` test like absence). -/
structure DataPoint where
  x : JSNum
  y : JSNum
  size : Option JSNum
deriving DecidableEq, Repr

/-- `clampTargetPoints`: `Math.floor(targetPoints)` (the `Number.isFinite`
fallback to 0 cannot trigger on a finite rational). -/
def clampTargetPoints (targetPoints : ℚ) : ℤ := ⌊targetPoints⌋

/-- The bucket aggregation mode of `sampleByBuckets`. -/
inductive BucketMode where
  | average
  | max
  | min
deriving DecidableEq, Repr

/-- The running accumulator of the `average` branch loop: sums and counts
of the finite x/y pairs, and of the finite magnitudes. -/
structure AvgAcc where
  sumX : ℚ
  sumY : ℚ
  sumSize : ℚ
  count : ℕ
  sizeCount : ℕ
deriving DecidableEq, Repr

/-- One iteration of the `average` loop body: skip the point unless both x
and y are finite; accumulate x, y and, when a finite magnitude is present,
the magnitude. -/
def avgStep (acc : AvgAcc) (p : DataPoint) : AvgAcc :=
  match p.x, p.y with
  | some x, some y =>
    let acc2 : AvgAcc :=
      ⟨acc.sumX + x, acc.sumY + y, acc.sumSize, acc.count + 1, acc.sizeCount⟩
    match p.size with
    | some (some s) =>
      ⟨acc2.sumX, acc2.sumY, acc2.sumSize + s, acc2.count, acc2.sizeCount + 1⟩
    | _ => acc2
  | _, _ => acc

/-- The `average` branch over one bucket: the mean of the finite x/y pairs
and, when any point carries a finite magnitude, the mean of the finite
magnitudes (the magnitude field omitted entirely otherwise); `none` when no
point contributed. -/
def averageBucket (pts : List DataPoint) : Option DataPoint :=
  let acc := pts.foldl avgStep ⟨0, 0, 0, 0, 0⟩
  if 0 < acc.count then
    if 0 < acc.sizeCount then
      some ⟨some (acc.sumX / acc.count), some (acc.sumY / acc.count),
        some (some (acc.sumSize / acc.sizeCount))⟩
    else some ⟨some (acc.sumX / acc.count), some (acc.sumY / acc.count), none⟩
  else none

/-- One iteration of the `max` loop body: `bestY` starts at `-Infinity`
(the `none` accumulator — any finite y beats it) and a point replaces the
champion only when its finite y is strictly greater. -/
def maxStep (acc : Option (DataPoint × ℚ)) (p : DataPoint) :
    Option (DataPoint × ℚ) :=
  match p.y with
  | none => acc
  | some y =>
    match acc with
    | none => some (p, y)
    | some (q, b) => if b < y then some (p, y) else some (q, b)

/-- One iteration of the `min` loop body (dual of `maxStep`). -/
def minStep (acc : Option (DataPoint × ℚ)) (p : DataPoint) :
    Option (DataPoint × ℚ) :=
  match p.y with
  | none => acc
  | some y =>
    match acc with
    | none => some (p, y)
    | some (q, b) => if y < b then some (p, y) else some (q, b)

/-- The `max` branch over one bucket: the source point with the largest
finite y, first occurrence on ties; `none` when no point has a finite y. -/
def selectMax (pts : List DataPoint) : Option DataPoint :=
  (pts.foldl maxStep none).map Prod.fst

/-- The `min` branch over one bucket (dual of `selectMax`). -/
def selectMin (pts : List DataPoint) : Option DataPoint :=
  (pts.foldl minStep none).map Prod.fst

/-- The index range `(rangeStart, rangeEndExclusive)` of interior bucket
`bucket` in `sampleByBuckets` (source lines: `rangeStart = floor(bucketSize
* bucket) + 1`, `rangeEndExclusive = min(floor(bucketSize * (bucket + 1)) +
1, lastIndex)`, then the degenerate-range adjustment). -/
def bucketRange (n t bucket : ℕ) : ℕ × ℕ :=
  let lastIndex := n - 1
  let bucketSize : ℚ := ((n : ℚ) - 2) / ((t : ℚ) - 2)
  let rs0 := (⌊bucketSize * (bucket : ℚ)⌋).toNat + 1
  let re0 := min ((⌊bucketSize * ((bucket : ℚ) + 1)⌋).toNat + 1) lastIndex
  if re0 ≤ rs0 then
    let rs := min rs0 (lastIndex - 1)
    (rs, min (rs + 1) lastIndex)
  else (rs0, re0)

/-- The sub-list of source points a bucket's loop iterates over
(`for (let i = rangeStart; i < rangeEndExclusive; i++)`). -/
def bucketSlice (data : List DataPoint) (t bucket : ℕ) : List DataPoint :=
  let r := bucketRange data.length t bucket
  (data.drop r.1).take (r.2 - r.1)

/-- The output point of interior bucket `bucket`:
`out[bucket + 1] = chosen ?? data[rangeStart]`. -/
def bucketOut (data : List DataPoint) (t bucket : ℕ) (mode : BucketMode) :
    DataPoint :=
  let r := bucketRange data.length t bucket
  let chosen : Option DataPoint :=
    match mode with
    | .average => averageBucket (bucketSlice data t bucket)
    | .max => selectMax (bucketSlice data t bucket)
    | .min => selectMin (bucketSlice data t bucket)
  chosen.getD (data.getD r.1 ⟨none, none, none⟩)

/-- `sampleByBuckets` from `src/data/sampleSeriesDataPoints.ts`: degenerate
thresholds first, then first/last points kept verbatim around `threshold -
2` aggregated interior buckets. -/
def sampleByBuckets (data : List DataPoint) (targetPoints : ℚ)
    (mode : BucketMode) : List DataPoint :=
  let n := data.length
  let threshold := clampTargetPoints targetPoints
  if threshold ≤ 0 ∨ n = 0 then []
  else if threshold = 1 then data.take 1
  else if threshold = 2 then
    if 2 ≤ n then data.take 1 ++ data.drop (n - 1) else data.take 1
  else if (n : ℤ) ≤ threshold then data
  else
    data.take 1 ++
      (List.range (threshold.toNat - 2)).map
        (fun bucket => bucketOut data threshold.toNat bucket mode) ++
      data.drop (n - 1)

/-- The caller-facing sampling mode of `sampleSeriesDataPoints`. -/
inductive SeriesSampling where
  | nosample
  | lttb
  | average
  | max
  | min
deriving DecidableEq, Repr

/-- `sampleSeriesDataPoints`, parameterized by the imported `lttbSample`
implementation (not needed for the claims below): disabled sampling, a
non-positive threshold, or a series already under the threshold keep the
original reference; otherwise dispatch on the mode. (`nosample` stands for
the source's `'none'` mode.) -/
def sampleSeriesDataPoints (lttbSample : List DataPoint → ℚ → List DataPoint)
    (data : List DataPoint) (sampling : SeriesSampling)
    (samplingThreshold : ℚ) : List DataPoint :=
  let threshold := clampTargetPoints samplingThreshold
  if sampling = SeriesSampling.nosample then data
  else if threshold ≤ 0 then data
  else if (data.length : ℤ) ≤ threshold then data
  else
    match sampling with
    | .lttb => lttbSample data (threshold : ℚ)
    | .average => sampleByBuckets data (threshold : ℚ) .average
    | .max => sampleByBuckets data (threshold : ℚ) .max
    | .min => sampleByBuckets data (threshold : ℚ) .min
    | .nosample => data

/-- Whether a point is excluded from its bucket's aggregate: the `average`
loop skips a point when x or y is non-finite, the `max`/`min` loops when y
is non-finite. -/
def excludedFrom (mode : BucketMode) (p : DataPoint) : Prop :=
  match mode with
  | .average => p.x = none ∨ p.y = none
  | .max => p.y = none
  | .min => p.y = none

instance (mode : BucketMode) (p : DataPoint) : Decidable (excludedFrom mode p) := by
  unfold excludedFrom
  cases mode <;> infer_instance

/-- The 10-point series `[(0,0) … (9,9)]` of the acceptance checks, no
magnitude field. -/
def c3Data : List DataPoint :=
  [⟨some 0, some 0, none⟩, ⟨some 1, some 1, none⟩, ⟨some 2, some 2, none⟩,
   ⟨some 3, some 3, none⟩, ⟨some 4, some 4, none⟩, ⟨some 5, some 5, none⟩,
   ⟨some 6, some 6, none⟩, ⟨some 7, some 7, none⟩, ⟨some 8, some 8, none⟩,
   ⟨some 9, some 9, none⟩]

/-- The same series with magnitudes 2 and 3 on the points at indices 1 and
2 (the points of interior bucket 0 of the 5-point reduction). -/
def c3DataSized : List DataPoint :=
  [⟨some 0, some 0, none⟩, ⟨some 1, some 1, some (some 2)⟩,
   ⟨some 2, some 2, some (some 3)⟩,
   ⟨some 3, some 3, none⟩, ⟨some 4, some 4, none⟩, ⟨some 5, some 5, none⟩,
   ⟨some 6, some 6, none⟩, ⟨some 7, some 7, none⟩, ⟨some 8, some 8, none⟩,
   ⟨some 9, some 9, none⟩]

end ChartGPU

namespace ChartGPU

theorem le_clampQ (v lo hi : ℚ) : lo ≤ clampQ v lo hi := le_max_left _ _

theorem clampQ_le (v lo hi : ℚ) (h : lo ≤ hi) : clampQ v lo hi ≤ hi :=
  max_le h (min_le_left _ _)

/-- **C1.** For every pair of finite numbers `(start, end)` with
`start ≤ end`, `set_viewport(start, end)` followed by `get_viewport` returns
a range whose span is at least `DEFAULT_MIN_SPAN` (0.5) and whose bounds
both lie in `[0, 100]`. -/
theorem C1_set_then_get_viewport_bounds (s e : ℚ) (h : s ≤ e) :
    DEFAULT_MIN_SPAN ≤ (getViewport (setRange s e)).stop - (getViewport (setRange s e)).start ∧
    0 ≤ (getViewport (setRange s e)).start ∧ (getViewport (setRange s e)).start ≤ 100 ∧
    0 ≤ (getViewport (setRange s e)).stop ∧ (getViewport (setRange s e)).stop ≤ 100 := by
  have hs0 : (0 : ℚ) ≤ clampQ s 0 100 := le_clampQ _ _ _
  have hs1 : clampQ s 0 100 ≤ 100 := clampQ_le _ _ _ (by norm_num)
  have he0 : (0 : ℚ) ≤ clampQ e 0 100 := le_clampQ _ _ _
  have he1 : clampQ e 0 100 ≤ 100 := clampQ_le _ _ _ (by norm_num)
  have hlo0 : (0 : ℚ) ≤ min (clampQ s 0 100) (clampQ e 0 100) := le_min hs0 he0
  have hhi1 : max (clampQ s 0 100) (clampQ e 0 100) ≤ 100 := max_le hs1 he1
  have hlohi : min (clampQ s 0 100) (clampQ e 0 100) ≤ max (clampQ s 0 100) (clampQ e 0 100) :=
    min_le_of_left_le (le_max_left _ _)
  unfold getViewport setRange
  simp only [DEFAULT_MIN_SPAN] at *
  split_ifs with h1 h2 h3 <;>
    refine ⟨?_, ?_, ?_, ?_, ?_⟩ <;> simp only [] <;> linarith

/-- Every call the pan branch of the pinch handler issues is a `pan`. -/
theorem pinchPanCalls_eq_pan (env : PinchEnv) (st : PinchState) (midX : ℚ) :
    ∀ c ∈ pinchPanCalls env st midX, ∃ d, c = ZoomCall.pan d := by
  intro c hc
  unfold pinchPanCalls at hc
  cases hm : st.previousPinchMidX with
  | none => simp only [hm] at hc; split_ifs at hc <;> simp at hc
  | some prevMidX =>
    simp only [hm] at hc
    split_ifs at hc <;> simp at hc
    exact ⟨_, hc⟩

/-- A strictly increasing distance sequence, prefixed with the reset
reference value `0`, satisfies the step relation used below. -/
theorem chain_zero_of_lt (l : List ℚ) (h : List.Chain' (· < ·) l) :
    List.Chain (fun a b : ℚ => a ≤ 0 ∨ a < b) 0 l := by
  cases l with
  | nil => exact List.Chain.nil
  | cons a l2 =>
    refine List.chain_cons.mpr ⟨Or.inl le_rfl, ?_⟩
    have h2 : List.Chain (· < ·) a l2 := h
    exact h2.imp (fun a b hab => Or.inr hab)

/-- Same for a strictly decreasing sequence. -/
theorem chain_zero_of_gt (l : List ℚ) (h : List.Chain' (· > ·) l) :
    List.Chain (fun a b : ℚ => a ≤ 0 ∨ b < a) 0 l := by
  cases l with
  | nil => exact List.Chain.nil
  | cons a l2 =>
    refine List.chain_cons.mpr ⟨Or.inl le_rfl, ?_⟩
    have h2 : List.Chain (· > ·) a l2 := h
    exact h2.imp (fun a b hab => Or.inr hab)

/-- Along any pinch run whose distances only grow (relative to the threaded
reference), no `zoomOut` is ever issued. -/
theorem pinchRun_no_zoomOut (frames : List PinchFrame) :
    ∀ st : PinchState, (∀ f ∈ frames, 0 < f.dist) →
      List.Chain (fun a b : ℚ => a ≤ 0 ∨ a < b) st.previousPinchDist
        (frames.map PinchFrame.dist) →
      ∀ c ∈ pinchRun st frames, c.isZoomOut = false := by
  induction frames with
  | nil => intro st _ _ c hc; simp [pinchRun] at hc
  | cons f rest ih =>
    intro st hpos hchain c hc
    rw [List.map_cons, List.chain_cons] at hchain
    obtain ⟨hrel, hchain2⟩ := hchain
    rw [pinchRun] at hc
    rcases List.mem_append.mp hc with hstep | hrest
    · by_cases hp : st.previousPinchDist > 0
      · have hd : 0 < f.dist := hpos f (List.mem_cons_self f rest)
        have hlt : st.previousPinchDist < f.dist := hrel.resolve_left (by linarith)
        have hfac : st.previousPinchDist / f.dist < 1 := (div_lt_one hd).mpr hlt
        simp only [pinchStep, if_pos (And.intro hp hd)] at hstep
        rcases List.mem_append.mp hstep with hz | hpn
        · rw [pinchZoomCalls, if_neg (by linarith), if_pos hfac] at hz
          simp only [List.mem_singleton] at hz
          subst hz; rfl
        · obtain ⟨d, hd2⟩ := pinchPanCalls_eq_pan _ _ _ c hpn
          subst hd2; rfl
      · have hcond : ¬ (st.previousPinchDist > 0 ∧ f.dist > 0) :=
          fun hand => hp hand.1
        simp only [pinchStep, if_neg hcond] at hstep
        simp at hstep
    · exact ih _ (fun g hg => hpos g (List.mem_cons_of_mem f hg)) hchain2 c hrest

/-- Along any pinch run whose distances only shrink (relative to the
threaded reference), no `zoomIn` is ever issued. -/
theorem pinchRun_no_zoomIn (frames : List PinchFrame) :
    ∀ st : PinchState, (∀ f ∈ frames, 0 < f.dist) →
      List.Chain (fun a b : ℚ => a ≤ 0 ∨ b < a) st.previousPinchDist
        (frames.map PinchFrame.dist) →
      ∀ c ∈ pinchRun st frames, c.isZoomIn = false := by
  induction frames with
  | nil => intro st _ _ c hc; simp [pinchRun] at hc
  | cons f rest ih =>
    intro st hpos hchain c hc
    rw [List.map_cons, List.chain_cons] at hchain
    obtain ⟨hrel, hchain2⟩ := hchain
    rw [pinchRun] at hc
    rcases List.mem_append.mp hc with hstep | hrest
    · by_cases hp : st.previousPinchDist > 0
      · have hd : 0 < f.dist := hpos f (List.mem_cons_self f rest)
        have hlt : f.dist < st.previousPinchDist := hrel.resolve_left (by linarith)
        have hfac : 1 < st.previousPinchDist / f.dist := (one_lt_div hd).mpr hlt
        simp only [pinchStep, if_pos (And.intro hp hd)] at hstep
        rcases List.mem_append.mp hstep with hz | hpn
        · rw [pinchZoomCalls, if_pos hfac] at hz
          simp only [List.mem_singleton] at hz
          subst hz; rfl
        · obtain ⟨d, hd2⟩ := pinchPanCalls_eq_pan _ _ _ c hpn
          subst hd2; rfl
      · have hcond : ¬ (st.previousPinchDist > 0 ∧ f.dist > 0) :=
          fun hand => hp hand.1
        simp only [pinchStep, if_neg hcond] at hstep
        simp at hstep
    · exact ih _ (fun g hg => hpos g (List.mem_cons_of_mem f hg)) hchain2 c hrest

/-- Unfolding a two-frame-or-more pinch run from the reset reference: the
first frame issues nothing (no previous-frame reference). -/
theorem pinchRun_reset_cons (f1 : PinchFrame) (rest : List PinchFrame) :
    pinchRun resetPinchState (f1 :: rest) =
      pinchRun ⟨f1.dist, some f1.midX⟩ rest := by
  rw [pinchRun]
  have h1 : (pinchStep f1.env resetPinchState f1.dist f1.midX).1 = [] := by
    simp [pinchStep, resetPinchState]
  rw [h1, List.nil_append]
  rfl

/-- **C7.** For every two-contact gesture run started from a fresh reference
whose inter-contact distances are positive and strictly increase (e.g. 100px
to 200px), at least one `zoomIn` call and zero `zoomOut` calls are issued;
for strictly decreasing distances (e.g. 200px to 100px), at least one
`zoomOut` call and zero `zoomIn` calls are issued. -/
theorem C7_pinch_direction (frames : List PinchFrame)
    (hlen : 2 ≤ frames.length) (hpos : ∀ f ∈ frames, 0 < f.dist) :
    (List.Chain' (· < ·) (frames.map PinchFrame.dist) →
      (∃ c ∈ pinchRun resetPinchState frames, c.isZoomIn = true) ∧
      ∀ c ∈ pinchRun resetPinchState frames, c.isZoomOut = false) ∧
    (List.Chain' (· > ·) (frames.map PinchFrame.dist) →
      (∃ c ∈ pinchRun resetPinchState frames, c.isZoomOut = true) ∧
      ∀ c ∈ pinchRun resetPinchState frames, c.isZoomIn = false) := by
  match frames, hlen with
  | f1 :: f2 :: rest, _ =>
    have hd1 : 0 < f1.dist := hpos f1 (by simp)
    have hd2 : 0 < f2.dist := hpos f2 (by simp)
    constructor
    · intro hchain
      have h12 : f1.dist < f2.dist := by
        rw [List.map_cons, List.map_cons, List.chain'_cons] at hchain
        exact hchain.1
      constructor
      · refine ⟨ZoomCall.zoomIn (pinchCenterPct f2.env f2.midX)
          (1 / (f1.dist / f2.dist)), ?_, rfl⟩
        rw [pinchRun_reset_cons, pinchRun]
        apply List.mem_append_left
        have hfac : f1.dist / f2.dist < 1 := (div_lt_one hd2).mpr h12
        simp only [pinchStep, PinchState.mk.injEq]
        rw [if_pos (And.intro hd1 hd2)]
        apply List.mem_append_left
        rw [pinchZoomCalls, if_neg (by linarith), if_pos hfac]
        simp
      · exact pinchRun_no_zoomOut _ resetPinchState hpos
          (chain_zero_of_lt _ hchain)
    · intro hchain
      have h12 : f2.dist < f1.dist := by
        rw [List.map_cons, List.map_cons, List.chain'_cons] at hchain
        exact hchain.1
      constructor
      · refine ⟨ZoomCall.zoomOut (pinchCenterPct f2.env f2.midX)
          (f1.dist / f2.dist), ?_, rfl⟩
        rw [pinchRun_reset_cons, pinchRun]
        apply List.mem_append_left
        have hfac : 1 < f1.dist / f2.dist := (one_lt_div hd2).mpr h12
        simp only [pinchStep, PinchState.mk.injEq]
        rw [if_pos (And.intro hd1 hd2)]
        apply List.mem_append_left
        rw [pinchZoomCalls, if_pos hfac]
        simp
      · exact pinchRun_no_zoomIn _ resetPinchState hpos
          (chain_zero_of_gt _ hchain)

/-- Witness for C7: two frames with distances 100px then 200px (spread)
issue a `zoomIn` and no `zoomOut`. -/
theorem C7_witness :
    (2 : ℕ) ≤ ([⟨⟨0, 0, 100, 0, 100⟩, 100, 400⟩,
        (⟨⟨0, 0, 100, 0, 100⟩, 200, 400⟩ : PinchFrame)] : List PinchFrame).length ∧
    (∃ c ∈ pinchRun resetPinchState
        [⟨⟨0, 0, 100, 0, 100⟩, 100, 400⟩, ⟨⟨0, 0, 100, 0, 100⟩, 200, 400⟩],
        c.isZoomIn = true) ∧
    ∀ c ∈ pinchRun resetPinchState
        [⟨⟨0, 0, 100, 0, 100⟩, 100, 400⟩, ⟨⟨0, 0, 100, 0, 100⟩, 200, 400⟩],
      c.isZoomOut = false :=
  ⟨by decide,
    (C7_pinch_direction
      [⟨⟨0, 0, 100, 0, 100⟩, 100, 400⟩, ⟨⟨0, 0, 100, 0, 100⟩, 200, 400⟩]
      (by decide) (by decide)).1
      (by simp only [List.map_cons, List.map_nil, List.chain'_cons,
            List.chain'_singleton, and_true]; norm_num)⟩

/-- **C2 — counterexample.** In a pinch step with a previous-frame reference
of 100px and a current distance of 200px (fingers spread), the scale factor
`previous_distance / current_distance = 1/2` is *not* greater than 1, yet
`zoom_in` is the call issued — refuting the claim that `zoom_in` is called
exactly when the factor is greater than 1. -/
theorem C2_counterexample :
    ¬ ((100 : ℚ) / 200 > 1) ∧
    (pinchStep ⟨0, 0, 100, 0, 100⟩ ⟨100, none⟩ 200 50).1 =
      [ZoomCall.zoomIn 50 2] := by
  constructor
  · norm_num
  · rw [pinchStep]
    norm_num [pinchZoomCalls, pinchPanCalls, pinchCenterPct, clampQ,
      min_def, max_def]

/-- **C2 — amended.** In the two-contact pinch step with a previous-frame
reference, the scale factor is `previous_distance / current_distance`;
`zoom_in` is called exactly when this factor is *less* than 1 (fingers
spread, passing `1 / factor` as the zoom factor) and `zoom_out` exactly when
it is *greater* than 1 (fingers pinch, passing `factor`), centered at the
contact midpoint mapped into percent space. -/
theorem C2_amended_pinch_zoom_direction (env : PinchEnv) (st : PinchState)
    (currentDist midX : ℚ) (hprev : 0 < st.previousPinchDist)
    (hcur : 0 < currentDist) :
    ((∃ c ∈ (pinchStep env st currentDist midX).1, c.isZoomIn = true) ↔
      st.previousPinchDist / currentDist < 1) ∧
    ((∃ c ∈ (pinchStep env st currentDist midX).1, c.isZoomOut = true) ↔
      1 < st.previousPinchDist / currentDist) ∧
    (st.previousPinchDist / currentDist < 1 →
      ZoomCall.zoomIn (pinchCenterPct env midX)
          (1 / (st.previousPinchDist / currentDist)) ∈
        (pinchStep env st currentDist midX).1) ∧
    (1 < st.previousPinchDist / currentDist →
      ZoomCall.zoomOut (pinchCenterPct env midX)
          (st.previousPinchDist / currentDist) ∈
        (pinchStep env st currentDist midX).1) := by
  simp only [pinchStep, if_pos (And.intro hprev hcur)]
  have hpan : ∀ c ∈ pinchPanCalls env st midX, c.isZoomIn = false ∧
      c.isZoomOut = false := by
    intro c hc
    obtain ⟨d, rfl⟩ := pinchPanCalls_eq_pan _ _ _ c hc
    exact ⟨rfl, rfl⟩
  rcases lt_trichotomy (st.previousPinchDist / currentDist) 1 with h | h | h
  · rw [pinchZoomCalls, if_neg (by linarith), if_pos h]
    refine ⟨?_, ?_, fun _ => by simp, fun h2 => absurd h2 (by linarith)⟩
    · simp only [iff_true_intro h, iff_true]
      exact ⟨ZoomCall.zoomIn (pinchCenterPct env midX)
        (1 / (st.previousPinchDist / currentDist)), by simp, rfl⟩
    · constructor
      · rintro ⟨c, hc, hout⟩
        rcases List.mem_append.mp hc with hz | hp
        · simp only [List.mem_singleton] at hz
          subst hz; simp [ZoomCall.isZoomOut] at hout
        · rw [(hpan c hp).2] at hout; exact absurd hout (by simp)
      · intro h2; exact absurd h2 (by linarith)
  · rw [pinchZoomCalls, if_neg (by linarith), if_neg (by linarith)]
    refine ⟨?_, ?_, fun h2 => absurd h2 (by linarith),
      fun h2 => absurd h2 (by linarith)⟩
    · constructor
      · rintro ⟨c, hc, hin⟩
        rw [List.nil_append] at hc
        rw [(hpan c hc).1] at hin; exact absurd hin (by simp)
      · intro h2; exact absurd h2 (by linarith)
    · constructor
      · rintro ⟨c, hc, hout⟩
        rw [List.nil_append] at hc
        rw [(hpan c hc).2] at hout; exact absurd hout (by simp)
      · intro h2; exact absurd h2 (by linarith)
  · rw [pinchZoomCalls, if_pos h]
    refine ⟨?_, ?_, fun h2 => absurd h2 (by linarith), fun _ => by simp⟩
    · constructor
      · rintro ⟨c, hc, hin⟩
        rcases List.mem_append.mp hc with hz | hp
        · simp only [List.mem_singleton] at hz
          subst hz; simp [ZoomCall.isZoomIn] at hin
        · rw [(hpan c hp).1] at hin; exact absurd hin (by simp)
      · intro h2; exact absurd h2 (by linarith)
    · simp only [iff_true_intro h, iff_true]
      exact ⟨ZoomCall.zoomOut (pinchCenterPct env midX)
        (st.previousPinchDist / currentDist), by simp, rfl⟩

/-- Witness for the amended C2 at the spread step (reference 100px, current
200px): `zoom_in` is issued, `zoom_out` is not. -/
theorem C2_amended_witness :
    (∃ c ∈ (pinchStep ⟨0, 0, 100, 0, 100⟩ ⟨100, none⟩ 200 50).1,
      c.isZoomIn = true) ↔ (100 : ℚ) / 200 < 1 :=
  (C2_amended_pinch_zoom_direction ⟨0, 0, 100, 0, 100⟩ ⟨100, none⟩ 200 50
    (by norm_num) (by norm_num)).1

/-- **C10.** The single-finger touch pan handler never calls `pan` with a
zero or non-finite delta: whenever the handler issues a delta it equals
`-(dxCss / plotWidthCss) * span` with `dxCss` finite and non-zero,
`plotWidthCss` finite and strictly positive, and `span` finite and non-zero
(so the delta is finite and non-zero); and the handler returns without
issuing a call when the pointer has no previous position, the horizontal
movement is zero or non-finite, the plot width is not strictly positive, or
the viewport span is zero or non-finite. -/
theorem C10_touch_pan_guarded (prev : Option (JSNum × JSNum))
    (clientX plotWidthCss rangeStart rangeStop : JSNum) :
    (∀ d, touchPanStep prev clientX plotWidthCss rangeStart rangeStop = some d →
      d ≠ 0 ∧ ∃ px py dxCss w span,
        prev = some (px, py) ∧ jsSub clientX px = some dxCss ∧ dxCss ≠ 0 ∧
        plotWidthCss = some w ∧ 0 < w ∧
        jsSub rangeStop rangeStart = some span ∧ span ≠ 0 ∧
        d = -(dxCss / w) * span) ∧
    (prev = none →
      touchPanStep prev clientX plotWidthCss rangeStart rangeStop = none) ∧
    (∀ px py, prev = some (px, py) →
      (jsSub clientX px = none ∨ jsSub clientX px = some 0) →
      touchPanStep prev clientX plotWidthCss rangeStart rangeStop = none) ∧
    ((plotWidthCss = none ∨ ∃ w, plotWidthCss = some w ∧ w ≤ 0) →
      touchPanStep prev clientX plotWidthCss rangeStart rangeStop = none) ∧
    ((jsSub rangeStop rangeStart = none ∨ jsSub rangeStop rangeStart = some 0) →
      touchPanStep prev clientX plotWidthCss rangeStart rangeStop = none) := by
  rcases prev with _ | ⟨px, py⟩
  · refine ⟨fun d hd => by simp [touchPanStep] at hd, fun _ => rfl,
      fun px py hpp => by simp at hpp, fun _ => rfl, fun _ => rfl⟩
  · rcases hdx : jsSub clientX px with _ | dx
    · refine ⟨fun d hd => ?_, by simp, fun px2 py2 hpp _ => ?_,
        fun _ => ?_, fun _ => ?_⟩ <;>
        simp_all [touchPanStep]
    · by_cases hdx0 : dx = 0
      · subst hdx0
        refine ⟨fun d hd => ?_, by simp, fun px2 py2 hpp _ => ?_,
          fun _ => ?_, fun _ => ?_⟩ <;>
          simp_all [touchPanStep]
      · rcases hw : plotWidthCss with _ | w
        · refine ⟨fun d hd => ?_, by simp, fun px2 py2 hpp hor => ?_,
            fun _ => ?_, fun _ => ?_⟩ <;>
            simp_all [touchPanStep]
        · by_cases hw0 : w ≤ 0
          · refine ⟨fun d hd => ?_, by simp, fun px2 py2 hpp hor => ?_,
              fun _ => ?_, fun _ => ?_⟩ <;>
              simp_all [touchPanStep]
          · rcases hsp : jsSub rangeStop rangeStart with _ | span
            · refine ⟨fun d hd => ?_, by simp, fun px2 py2 hpp hor => ?_,
                fun _ => ?_, fun _ => ?_⟩ <;>
                simp_all [touchPanStep]
            · by_cases hsp0 : span = 0
              · subst hsp0
                refine ⟨fun d hd => ?_, by simp, fun px2 py2 hpp hor => ?_,
                  fun hor => ?_, fun _ => ?_⟩ <;>
                  simp_all [touchPanStep]
              · subst hw
                have hwpos : 0 < w := lt_of_not_le hw0
                have hwne : w ≠ 0 := ne_of_gt hwpos
                have hne : -(dx / w) * span ≠ 0 :=
                  mul_ne_zero (neg_ne_zero.mpr (div_ne_zero hdx0 hwne)) hsp0
                have heval : touchPanStep (some (px, py)) clientX (some w)
                    rangeStart rangeStop = some (-(dx / w) * span) := by
                  simp [touchPanStep, hdx, hsp, hdx0, hsp0, hne, hw0, hwne]
                refine ⟨fun d hd => ?_, by simp, fun px2 py2 hpp hor => ?_,
                  fun hor => ?_, fun hor => ?_⟩
                · rw [heval] at hd
                  injection hd with hd1
                  subst hd1
                  exact ⟨hne, px, py, dx, w, span, rfl, hdx, hdx0, rfl, hwpos,
                    rfl, hsp0, rfl⟩
                · simp only [Option.some.injEq, Prod.mk.injEq] at hpp
                  obtain ⟨rfl, rfl⟩ := hpp
                  rw [hdx] at hor
                  rcases hor with h | h <;> simp_all
                · rcases hor with h | ⟨w2, hw2, hw2le⟩
                  · simp_all
                  · injection hw2 with h2
                    subst h2
                    exact absurd hw2le hw0
                · rcases hor with h | h <;> simp_all

/-- Witness for C10: with no previous tracked position the handler is a
no-op. -/
theorem C10_witness :
    touchPanStep none (some 430) (some 720) (some 20) (some 80) = none :=
  (C10_touch_pan_guarded none (some 430) (some 720) (some 20) (some 80)).2.1 rfl

/-- `request` on a running scheduler only sets the pending flag. -/
theorem requestN_running (n : ℕ) (p : Bool) (hn : 1 ≤ n) :
    requestN n ⟨true, p⟩ = ⟨true, true⟩ := by
  induction n generalizing p with
  | zero => exact absurd hn (by norm_num)
  | succ m ih =>
    show requestN m (request ⟨true, p⟩) = _
    have hreq : request ⟨true, p⟩ = ⟨true, true⟩ := rfl
    rw [hreq]
    rcases Nat.eq_zero_or_pos m with rfl | hm
    · rfl
    · exact ih true hm

/-- **C6.** Any number `n ≥ 1` of `request()` calls arriving before a single
refresh tick produce exactly one recomputation pass in that tick; zero
passes run in a tick with no prior `request()`; and when the pass itself
performs `k ≥ 1` further `request()` calls, exactly one pass still runs in
that tick and exactly one further wake-up is left scheduled (rather than an
unbounded loop within the same tick). -/
theorem C6_request_coalescing (n k : ℕ) (hn : 1 ≤ n) :
    (tick (requestN n startedScheduler) 0).1 = 1 ∧
    (tick startedScheduler k).1 = 0 ∧
    (1 ≤ k →
      (tick (requestN n startedScheduler) k).1 = 1 ∧
      (tick (requestN n startedScheduler) k).2 = ⟨true, true⟩) := by
  have hreq : requestN n startedScheduler = ⟨true, true⟩ :=
    requestN_running n false hn
  refine ⟨?_, rfl, fun hk => ⟨?_, ?_⟩⟩
  · rw [hreq]; rfl
  · rw [hreq]; rfl
  · rw [hreq]
    show requestN k ⟨true, false⟩ = ⟨true, true⟩
    exact requestN_running k false hk

/-- Witness for C6 at `n = 50` requests and a pass that re-requests once. -/
theorem C6_witness :
    (tick (requestN 50 startedScheduler) 0).1 = 1 ∧
    (tick startedScheduler 1).1 = 0 ∧
    ((tick (requestN 50 startedScheduler) 1).1 = 1 ∧
      (tick (requestN 50 startedScheduler) 1).2 = ⟨true, true⟩) := by
  obtain ⟨h1, h2, h3⟩ := C6_request_coalescing 50 1 (by norm_num)
  exact ⟨h1, h2, h3 (by norm_num)⟩

/-- On a non-decreasing list, the lower bound is at most `i` iff the `i`-th
element is at least `m`. -/
theorem lowerBound_le_iff (xs : List ℚ) (m : ℚ)
    (hs : List.Pairwise (· ≤ ·) xs) :
    ∀ i (hi : i < xs.length), (lowerBound xs m ≤ i ↔ m ≤ xs.get ⟨i, hi⟩) := by
  induction xs with
  | nil => intro i hi; exact absurd hi (by simp)
  | cons x rest ih =>
    obtain ⟨hx, hrest⟩ := List.pairwise_cons.mp hs
    intro i hi
    rw [lowerBound]
    split_ifs with hmx
    · simp only [Nat.zero_le, true_iff]
      match i with
      | 0 => exact hmx
      | j + 1 =>
        have hj : j < rest.length := by simpa using hi
        have hmem : (x :: rest).get ⟨j + 1, hi⟩ ∈ rest := by
          simpa using List.get_mem rest j hj
        exact le_trans hmx (hx _ hmem)
    · match i with
      | 0 =>
        simp only [Nat.succ_le_iff]
        exact iff_of_false (by omega) hmx
      | j + 1 =>
        have hj : j < rest.length := by simpa using hi
        simpa [Nat.succ_le_succ_iff] using ih hrest j hj

/-- On a non-decreasing list, `i` is below the upper bound iff the `i`-th
element is at most `m`. -/
theorem lt_upperBound_iff (xs : List ℚ) (m : ℚ)
    (hs : List.Pairwise (· ≤ ·) xs) :
    ∀ i (hi : i < xs.length), (i < upperBound xs m ↔ xs.get ⟨i, hi⟩ ≤ m) := by
  induction xs with
  | nil => intro i hi; exact absurd hi (by simp)
  | cons x rest ih =>
    obtain ⟨hx, hrest⟩ := List.pairwise_cons.mp hs
    intro i hi
    rw [upperBound]
    split_ifs with hmx
    · refine iff_of_false (by omega) ?_
      match i with
      | 0 => exact not_le.mpr hmx
      | j + 1 =>
        have hj : j < rest.length := by simpa using hi
        have hmem : (x :: rest).get ⟨j + 1, hi⟩ ∈ rest := by
          simpa using List.get_mem rest j hj
        exact not_le.mpr (lt_of_lt_of_le hmx (hx _ hmem))
    · match i with
      | 0 => simpa using not_lt.mp hmx
      | j + 1 =>
        have hj : j < rest.length := by simpa using hi
        simpa [Nat.succ_lt_succ_iff] using ih hrest j hj

/-- The upper bound never exceeds the list length. -/
theorem upperBound_le_length (xs : List ℚ) (m : ℚ) :
    upperBound xs m ≤ xs.length := by
  induction xs with
  | nil => exact le_rfl
  | cons x rest ih =>
    rw [upperBound]
    split_ifs with hmx
    · simp
    · simpa [Nat.succ_le_succ_iff] using ih

/-- **C4.** For a series verified non-decreasing in x and a window
`[mn, mx]`, the slicer's half-open index range `[lowerBound, upperBound)`
contains an index `i` exactly when `mn ≤ x_i ≤ mx` — so points with
`x = mn` or `x = mx` are included and runs of tied x values are never
partially dropped — and an empty window (`mx < mn`) or an empty series
yields an empty range rather than an error. -/
theorem C4_sorted_slice_bounds (xs : List ℚ) (mn mx : ℚ)
    (hs : List.Pairwise (· ≤ ·) xs) :
    (∀ i (hi : i < xs.length),
      ((sliceRange xs mn mx).1 ≤ i ∧ i < (sliceRange xs mn mx).2 ↔
        mn ≤ xs.get ⟨i, hi⟩ ∧ xs.get ⟨i, hi⟩ ≤ mx)) ∧
    (mx < mn → (sliceRange xs mn mx).2 ≤ (sliceRange xs mn mx).1) ∧
    (xs = [] → sliceRange xs mn mx = (0, 0)) := by
  have hchar : ∀ i (hi : i < xs.length),
      ((sliceRange xs mn mx).1 ≤ i ∧ i < (sliceRange xs mn mx).2 ↔
        mn ≤ xs.get ⟨i, hi⟩ ∧ xs.get ⟨i, hi⟩ ≤ mx) := by
    intro i hi
    exact and_congr (lowerBound_le_iff xs mn hs i hi)
      (lt_upperBound_iff xs mx hs i hi)
  refine ⟨hchar, fun hw => ?_, fun he => by subst he; rfl⟩
  by_contra hlt
  push_neg at hlt
  have hub : (sliceRange xs mn mx).2 ≤ xs.length := upperBound_le_length xs mx
  have hi : (sliceRange xs mn mx).1 < xs.length := lt_of_lt_of_le hlt hub
  have := (hchar _ hi).mp ⟨le_rfl, hlt⟩
  linarith [this.1, this.2]

/-- Witness for C4 on the sorted series `[0, 1, 1, 2]` with window `[1, 1]`:
index `2` (a tied `x = 1` point, equal to both window edges) lies in the
slice range. -/
theorem C4_witness :
    (sliceRange [0, 1, 1, 2] 1 1).1 ≤ 2 ∧ 2 < (sliceRange [0, 1, 1, 2] 1 1).2 :=
  ((C4_sorted_slice_bounds [0, 1, 1, 2] 1 1 (by decide)).1 2 (by decide)).mpr
    (by decide)

/-- **C3.** Aggregate `average` downsampling of the 10-point series
`[(0,0) … (9,9)]` to target 5 returns 5 points; its second output point
(index 1) is the mean of the source points at indices 1–2 (x = y = 3/2);
with finite magnitudes 2 and 3 on those points the output point carries
their mean 5/2, and with no magnitude in the bucket the output point omits
the magnitude field entirely. -/
theorem C3_average_ten_points :
    (sampleByBuckets c3Data 5 .average).length = 5 ∧
    (sampleByBuckets c3Data 5 .average)[1]? =
      some ⟨some (3 / 2), some (3 / 2), none⟩ ∧
    (sampleByBuckets c3DataSized 5 .average)[1]? =
      some ⟨some (3 / 2), some (3 / 2), some (some (5 / 2))⟩ := by
  have hthr : clampTargetPoints 5 = 5 := by norm_num [clampTargetPoints]
  have hbr : bucketRange 10 5 0 = (1, 3) := by norm_num [bucketRange]; omega
  have hsliceA : bucketSlice c3Data 5 0 =
      [⟨some 1, some 1, none⟩, ⟨some 2, some 2, none⟩] := by
    simp only [bucketSlice]
    rw [show c3Data.length = 10 from rfl, hbr]
    rfl
  have hsliceB : bucketSlice c3DataSized 5 0 =
      [⟨some 1, some 1, some (some 2)⟩, ⟨some 2, some 2, some (some 3)⟩] := by
    simp only [bucketSlice]
    rw [show c3DataSized.length = 10 from rfl, hbr]
    rfl
  have havgA : averageBucket [⟨some 1, some 1, none⟩, ⟨some 2, some 2, none⟩] =
      some ⟨some (3 / 2), some (3 / 2), none⟩ := by
    norm_num [averageBucket, avgStep]
  have havgB : averageBucket
      [⟨some 1, some 1, some (some 2)⟩, ⟨some 2, some 2, some (some 3)⟩] =
      some ⟨some (3 / 2), some (3 / 2), some (some (5 / 2))⟩ := by
    norm_num [averageBucket, avgStep]
  have hbA : bucketOut c3Data 5 0 .average = ⟨some (3 / 2), some (3 / 2), none⟩ := by
    simp only [bucketOut, hsliceA, havgA]
    rfl
  have hbB : bucketOut c3DataSized 5 0 .average =
      ⟨some (3 / 2), some (3 / 2), some (some (5 / 2))⟩ := by
    simp only [bucketOut, hsliceB, havgB]
    rfl
  have hlistA : sampleByBuckets c3Data 5 .average =
      [⟨some 0, some 0, none⟩, bucketOut c3Data 5 0 .average,
        bucketOut c3Data 5 1 .average, bucketOut c3Data 5 2 .average,
        ⟨some 9, some 9, none⟩] := by
    simp only [sampleByBuckets, hthr]
    rw [if_neg (by decide), if_neg (by decide), if_neg (by decide),
      if_neg (by decide)]
    rfl
  have hlistB : sampleByBuckets c3DataSized 5 .average =
      [⟨some 0, some 0, none⟩, bucketOut c3DataSized 5 0 .average,
        bucketOut c3DataSized 5 1 .average, bucketOut c3DataSized 5 2 .average,
        ⟨some 9, some 9, none⟩] := by
    simp only [sampleByBuckets, hthr]
    rw [if_neg (by decide), if_neg (by decide), if_neg (by decide),
      if_neg (by decide)]
    rfl
  refine ⟨by rw [hlistA]; rfl, ?_, ?_⟩
  · rw [hlistA]
    simp only [hbA]
    rfl
  · rw [hlistB]
    simp only [hbB]
    rfl

/-- **C5 — counterexample.** With `target = 0 ≤ 1` on a two-point series,
`sampleByBuckets` returns the empty sequence — not "only the first source
point" — and `sampleSeriesDataPoints` returns the whole source unchanged. -/
theorem C5_counterexample :
    sampleByBuckets [⟨some 0, some 0, none⟩, ⟨some 1, some 1, none⟩] 0
        .average = [] ∧
    sampleByBuckets [⟨some 0, some 0, none⟩, ⟨some 1, some 1, none⟩] 0
        .average ≠ [⟨some 0, some 0, none⟩] ∧
    sampleSeriesDataPoints (fun d _ => d)
        [⟨some 0, some 0, none⟩, ⟨some 1, some 1, none⟩] .average 0 =
      [⟨some 0, some 0, none⟩, ⟨some 1, some 1, none⟩] := by
  norm_num [sampleByBuckets, sampleSeriesDataPoints, clampTargetPoints]

/-- **C5 — amended.** Degenerate thresholds of the bucket downsampler: a
target whose floor is `≤ 0` yields the empty sequence from
`sampleByBuckets` (and the untouched source from `sampleSeriesDataPoints`);
target 1 returns only the first source point; target 2 returns exactly the
first and last source points (when the source has at least two); and
whenever the source length is at most a positive target, the source is
returned unchanged as the identical sequence. -/
theorem C5_amended_degenerate_thresholds
    (lttbSample : List DataPoint → ℚ → List DataPoint) (data : List DataPoint)
    (targetPoints : ℚ) (mode : BucketMode) :
    (clampTargetPoints targetPoints ≤ 0 →
      sampleByBuckets data targetPoints mode = [] ∧
      ∀ s, sampleSeriesDataPoints lttbSample data s targetPoints = data) ∧
    (clampTargetPoints targetPoints = 1 → data ≠ [] →
      sampleByBuckets data targetPoints mode = data.take 1) ∧
    (clampTargetPoints targetPoints = 2 → 2 ≤ data.length →
      sampleByBuckets data targetPoints mode =
        data.take 1 ++ data.drop (data.length - 1)) ∧
    (1 ≤ clampTargetPoints targetPoints →
      (data.length : ℤ) ≤ clampTargetPoints targetPoints →
      sampleByBuckets data targetPoints mode = data) := by
  refine ⟨fun hle => ⟨?_, fun s => ?_⟩, fun h1 hne => ?_, fun h2 hn => ?_,
    fun h1 hn => ?_⟩
  · simp only [sampleByBuckets]
    rw [if_pos (Or.inl hle)]
  · simp only [sampleSeriesDataPoints]
    by_cases hs : s = SeriesSampling.nosample
    · rw [if_pos hs]
    · rw [if_neg hs, if_pos hle]
  · have hn0 : data.length ≠ 0 := fun h => hne (List.length_eq_zero.mp h)
    simp only [sampleByBuckets]
    rw [if_neg (by push_neg; exact ⟨by omega, hn0⟩), if_pos h1]
  · have hn0 : data.length ≠ 0 := by omega
    simp only [sampleByBuckets]
    rw [if_neg (by push_neg; exact ⟨by omega, hn0⟩), if_neg (by omega),
      if_pos h2, if_pos hn]
  · rcases Nat.eq_zero_or_pos data.length with hn0 | hn0
    · simp only [sampleByBuckets]
      rw [if_pos (Or.inr hn0)]
      exact (List.length_eq_zero.mp hn0).symm
    · simp only [sampleByBuckets]
      rw [if_neg (by push_neg; exact ⟨by omega, by omega⟩)]
      by_cases ht1 : clampTargetPoints targetPoints = 1
      · rw [if_pos ht1]
        have hlen : data.length = 1 := by rw [ht1] at hn; omega
        rw [← hlen]
        exact List.take_length data
      · rw [if_neg ht1]
        by_cases ht2 : clampTargetPoints targetPoints = 2
        · rw [if_pos ht2]
          have hn2 : data.length ≤ 2 := by rw [ht2] at hn; omega
          by_cases h2n : 2 ≤ data.length
          · rw [if_pos h2n]
            have hlen : data.length = 2 := le_antisymm hn2 h2n
            rw [hlen]
            simpa using List.take_append_drop 1 data
          · rw [if_neg h2n]
            have hlen : data.length = 1 := by omega
            rw [← hlen]
            exact List.take_length data
        · rw [if_neg ht2, if_pos hn]

/-- Witness for the amended C5: target 1 on a two-point series returns only
the first point. -/
theorem C5_amended_witness :
    sampleByBuckets [⟨some 0, some 0, none⟩, ⟨some 1, some 1, none⟩] 1
        .average =
      ([⟨some 0, some 0, none⟩, ⟨some 1, some 1, none⟩] :
        List DataPoint).take 1 :=
  (C5_amended_degenerate_thresholds (fun d _ => d)
    [⟨some 0, some 0, none⟩, ⟨some 1, some 1, none⟩] 1 .average).2.1
    (by simp [clampTargetPoints]) (by simp)

/-- Invariant of the `max` loop once a champion exists: the final champion
has the largest finite y seen, and either it is the initial one (nothing
beat it) or it sits in the remaining list after a prefix of strictly
smaller finite ys. -/
theorem foldl_maxStep_some (rest : List DataPoint) :
    ∀ (q : DataPoint) (b : ℚ),
      ∃ q2 b2, rest.foldl maxStep (some (q, b)) = some (q2, b2) ∧
        b ≤ b2 ∧
        (∀ p ∈ rest, ∀ yp, p.y = some yp → yp ≤ b2) ∧
        ((q2 = q ∧ b2 = b) ∨
          ∃ l1 l2, rest = l1 ++ q2 :: l2 ∧ b < b2 ∧ q2.y = some b2 ∧
            (∀ p ∈ l1, ∀ yp, p.y = some yp → yp < b2)) := by
  induction rest with
  | nil =>
    intro q b
    exact ⟨q, b, rfl, le_rfl, by simp, Or.inl ⟨rfl, rfl⟩⟩
  | cons r rest2 ih =>
    intro q b
    rw [List.foldl_cons]
    cases hy : r.y with
    | none =>
      have hstep : maxStep (some (q, b)) r = some (q, b) := by
        unfold maxStep; rw [hy]
      rw [hstep]
      obtain ⟨q2, b2, heq, hle, hall, hdec⟩ := ih q b
      refine ⟨q2, b2, heq, hle, ?_, ?_⟩
      · intro p hp yp hpy
        rcases List.mem_cons.mp hp with rfl | hp2
        · rw [hy] at hpy; exact absurd hpy (by simp)
        · exact hall p hp2 yp hpy
      · rcases hdec with h | ⟨l1, l2, hsplit, hlt, hq2y, hl1⟩
        · exact Or.inl h
        · refine Or.inr ⟨r :: l1, l2, by rw [hsplit, List.cons_append], hlt, hq2y, ?_⟩
          intro p hp yp hpy
          rcases List.mem_cons.mp hp with rfl | hp2
          · rw [hy] at hpy; exact absurd hpy (by simp)
          · exact hl1 p hp2 yp hpy
    | some yr =>
      by_cases hgt : b < yr
      · have hstep : maxStep (some (q, b)) r = some (r, yr) := by
          unfold maxStep; rw [hy]; simp [hgt]
        rw [hstep]
        obtain ⟨q2, b2, heq, hle, hall, hdec⟩ := ih r yr
        refine ⟨q2, b2, heq, le_trans (le_of_lt hgt) hle, ?_, ?_⟩
        · intro p hp yp hpy
          rcases List.mem_cons.mp hp with rfl | hp2
          · rw [hy] at hpy; injection hpy with hh; subst hh; exact hle
          · exact hall p hp2 yp hpy
        · rcases hdec with ⟨hq, hb⟩ | ⟨l1, l2, hsplit, hlt, hq2y, hl1⟩
          · subst hq; subst hb
            exact Or.inr ⟨[], rest2, rfl, hgt, hy, by simp⟩
          · refine Or.inr ⟨r :: l1, l2, by rw [hsplit, List.cons_append],
              lt_trans hgt hlt, hq2y, ?_⟩
            intro p hp yp hpy
            rcases List.mem_cons.mp hp with rfl | hp2
            · rw [hy] at hpy; injection hpy with hh; subst hh; exact hlt
            · exact hl1 p hp2 yp hpy
      · have hstep : maxStep (some (q, b)) r = some (q, b) := by
          unfold maxStep; rw [hy]; simp [hgt]
        rw [hstep]
        obtain ⟨q2, b2, heq, hle, hall, hdec⟩ := ih q b
        refine ⟨q2, b2, heq, hle, ?_, ?_⟩
        · intro p hp yp hpy
          rcases List.mem_cons.mp hp with rfl | hp2
          · rw [hy] at hpy; injection hpy with hh; subst hh
            exact le_trans (not_lt.mp hgt) hle
          · exact hall p hp2 yp hpy
        · rcases hdec with h | ⟨l1, l2, hsplit, hlt, hq2y, hl1⟩
          · exact Or.inl h
          · refine Or.inr ⟨r :: l1, l2, by rw [hsplit, List.cons_append], hlt,
              hq2y, ?_⟩
            intro p hp yp hpy
            rcases List.mem_cons.mp hp with rfl | hp2
            · rw [hy] at hpy; injection hpy with hh; subst hh
              exact lt_of_le_of_lt (not_lt.mp hgt) hlt
            · exact hl1 p hp2 yp hpy

/-- Dual invariant for the `min` loop. -/
theorem foldl_minStep_some (rest : List DataPoint) :
    ∀ (q : DataPoint) (b : ℚ),
      ∃ q2 b2, rest.foldl minStep (some (q, b)) = some (q2, b2) ∧
        b2 ≤ b ∧
        (∀ p ∈ rest, ∀ yp, p.y = some yp → b2 ≤ yp) ∧
        ((q2 = q ∧ b2 = b) ∨
          ∃ l1 l2, rest = l1 ++ q2 :: l2 ∧ b2 < b ∧ q2.y = some b2 ∧
            (∀ p ∈ l1, ∀ yp, p.y = some yp → b2 < yp)) := by
  induction rest with
  | nil =>
    intro q b
    exact ⟨q, b, rfl, le_rfl, by simp, Or.inl ⟨rfl, rfl⟩⟩
  | cons r rest2 ih =>
    intro q b
    rw [List.foldl_cons]
    cases hy : r.y with
    | none =>
      have hstep : minStep (some (q, b)) r = some (q, b) := by
        unfold minStep; rw [hy]
      rw [hstep]
      obtain ⟨q2, b2, heq, hle, hall, hdec⟩ := ih q b
      refine ⟨q2, b2, heq, hle, ?_, ?_⟩
      · intro p hp yp hpy
        rcases List.mem_cons.mp hp with rfl | hp2
        · rw [hy] at hpy; exact absurd hpy (by simp)
        · exact hall p hp2 yp hpy
      · rcases hdec with h | ⟨l1, l2, hsplit, hlt, hq2y, hl1⟩
        · exact Or.inl h
        · refine Or.inr ⟨r :: l1, l2, by rw [hsplit, List.cons_append], hlt, hq2y, ?_⟩
          intro p hp yp hpy
          rcases List.mem_cons.mp hp with rfl | hp2
          · rw [hy] at hpy; exact absurd hpy (by simp)
          · exact hl1 p hp2 yp hpy
    | some yr =>
      by_cases hgt : yr < b
      · have hstep : minStep (some (q, b)) r = some (r, yr) := by
          unfold minStep; rw [hy]; simp [hgt]
        rw [hstep]
        obtain ⟨q2, b2, heq, hle, hall, hdec⟩ := ih r yr
        refine ⟨q2, b2, heq, le_trans hle (le_of_lt hgt), ?_, ?_⟩
        · intro p hp yp hpy
          rcases List.mem_cons.mp hp with rfl | hp2
          · rw [hy] at hpy; injection hpy with hh; subst hh; exact hle
          · exact hall p hp2 yp hpy
        · rcases hdec with ⟨hq, hb⟩ | ⟨l1, l2, hsplit, hlt, hq2y, hl1⟩
          · subst hq; subst hb
            exact Or.inr ⟨[], rest2, rfl, hgt, hy, by simp⟩
          · refine Or.inr ⟨r :: l1, l2, by rw [hsplit, List.cons_append],
              lt_trans hlt hgt, hq2y, ?_⟩
            intro p hp yp hpy
            rcases List.mem_cons.mp hp with rfl | hp2
            · rw [hy] at hpy; injection hpy with hh; subst hh; exact hlt
            · exact hl1 p hp2 yp hpy
      · have hstep : minStep (some (q, b)) r = some (q, b) := by
          unfold minStep; rw [hy]; simp [hgt]
        rw [hstep]
        obtain ⟨q2, b2, heq, hle, hall, hdec⟩ := ih q b
        refine ⟨q2, b2, heq, hle, ?_, ?_⟩
        · intro p hp yp hpy
          rcases List.mem_cons.mp hp with rfl | hp2
          · rw [hy] at hpy; injection hpy with hh; subst hh
            exact le_trans hle (not_lt.mp hgt)
          · exact hall p hp2 yp hpy
        · rcases hdec with h | ⟨l1, l2, hsplit, hlt, hq2y, hl1⟩
          · exact Or.inl h
          · refine Or.inr ⟨r :: l1, l2, by rw [hsplit, List.cons_append], hlt,
              hq2y, ?_⟩
            intro p hp yp hpy
            rcases List.mem_cons.mp hp with rfl | hp2
            · rw [hy] at hpy; injection hpy with hh; subst hh
              exact lt_of_lt_of_le hlt (not_lt.mp hgt)
            · exact hl1 p hp2 yp hpy

/-- `selectMax` picks the first point attaining the largest finite y. -/
theorem selectMax_first_argmax : ∀ (pts : List DataPoint),
    (∃ p ∈ pts, p.y ≠ Option.none) →
    ∃ q yq l1 l2, selectMax pts = some q ∧ pts = l1 ++ q :: l2 ∧
      q.y = some yq ∧
      (∀ p ∈ pts, ∀ yp, p.y = some yp → yp ≤ yq) ∧
      (∀ p ∈ l1, ∀ yp, p.y = some yp → yp < yq) := by
  intro pts
  induction pts with
  | nil => intro h; simp at h
  | cons p0 rest ih =>
    intro h
    cases hy : p0.y with
    | none =>
      have hstep : maxStep none p0 = none := by
        unfold maxStep; rw [hy]
      have hsel : selectMax (p0 :: rest) = selectMax rest := by
        unfold selectMax
        rw [List.foldl_cons, hstep]
      have h2 : ∃ p ∈ rest, p.y ≠ Option.none := by
        obtain ⟨p, hp, hpy⟩ := h
        rcases List.mem_cons.mp hp with rfl | hp2
        · exact absurd hy hpy
        · exact ⟨p, hp2, hpy⟩
      obtain ⟨q, yq, l1, l2, hsel2, hsplit, hqy, hall, hl1⟩ := ih h2
      refine ⟨q, yq, p0 :: l1, l2, by rw [hsel, hsel2],
        by rw [hsplit, List.cons_append], hqy, ?_, ?_⟩
      · intro p hp yp hpy
        rcases List.mem_cons.mp hp with rfl | hp2
        · rw [hy] at hpy; exact absurd hpy (by simp)
        · exact hall p hp2 yp hpy
      · intro p hp yp hpy
        rcases List.mem_cons.mp hp with rfl | hp2
        · rw [hy] at hpy; exact absurd hpy (by simp)
        · exact hl1 p hp2 yp hpy
    | some y0 =>
      have hstep : maxStep none p0 = some (p0, y0) := by
        unfold maxStep; rw [hy]
      obtain ⟨q2, b2, heq, hle, hall, hdec⟩ := foldl_maxStep_some rest p0 y0
      have hsel : selectMax (p0 :: rest) = some q2 := by
        unfold selectMax
        rw [List.foldl_cons, hstep, heq]
        rfl
      rcases hdec with ⟨hq, hb⟩ | ⟨l1, l2, hsplit, hlt, hq2y, hl1⟩
      · subst hq; subst hb
        refine ⟨q2, b2, [], rest, hsel, rfl, hy, ?_, by simp⟩
        intro p hp yp hpy
        rcases List.mem_cons.mp hp with rfl | hp2
        · rw [hy] at hpy; injection hpy with hh; subst hh; exact le_rfl
        · exact hall p hp2 yp hpy
      · refine ⟨q2, b2, p0 :: l1, l2, hsel, by rw [hsplit, List.cons_append],
          hq2y, ?_, ?_⟩
        · intro p hp yp hpy
          rcases List.mem_cons.mp hp with rfl | hp2
          · rw [hy] at hpy; injection hpy with hh; subst hh; exact hle
          · exact hall p hp2 yp hpy
        · intro p hp yp hpy
          rcases List.mem_cons.mp hp with rfl | hp2
          · rw [hy] at hpy; injection hpy with hh; subst hh; exact hlt
          · exact hl1 p hp2 yp hpy

/-- `selectMin` picks the first point attaining the smallest finite y. -/
theorem selectMin_first_argmin : ∀ (pts : List DataPoint),
    (∃ p ∈ pts, p.y ≠ Option.none) →
    ∃ q yq l1 l2, selectMin pts = some q ∧ pts = l1 ++ q :: l2 ∧
      q.y = some yq ∧
      (∀ p ∈ pts, ∀ yp, p.y = some yp → yq ≤ yp) ∧
      (∀ p ∈ l1, ∀ yp, p.y = some yp → yq < yp) := by
  intro pts
  induction pts with
  | nil => intro h; simp at h
  | cons p0 rest ih =>
    intro h
    cases hy : p0.y with
    | none =>
      have hstep : minStep none p0 = none := by
        unfold minStep; rw [hy]
      have hsel : selectMin (p0 :: rest) = selectMin rest := by
        unfold selectMin
        rw [List.foldl_cons, hstep]
      have h2 : ∃ p ∈ rest, p.y ≠ Option.none := by
        obtain ⟨p, hp, hpy⟩ := h
        rcases List.mem_cons.mp hp with rfl | hp2
        · exact absurd hy hpy
        · exact ⟨p, hp2, hpy⟩
      obtain ⟨q, yq, l1, l2, hsel2, hsplit, hqy, hall, hl1⟩ := ih h2
      refine ⟨q, yq, p0 :: l1, l2, by rw [hsel, hsel2],
        by rw [hsplit, List.cons_append], hqy, ?_, ?_⟩
      · intro p hp yp hpy
        rcases List.mem_cons.mp hp with rfl | hp2
        · rw [hy] at hpy; exact absurd hpy (by simp)
        · exact hall p hp2 yp hpy
      · intro p hp yp hpy
        rcases List.mem_cons.mp hp with rfl | hp2
        · rw [hy] at hpy; exact absurd hpy (by simp)
        · exact hl1 p hp2 yp hpy
    | some y0 =>
      have hstep : minStep none p0 = some (p0, y0) := by
        unfold minStep; rw [hy]
      obtain ⟨q2, b2, heq, hle, hall, hdec⟩ := foldl_minStep_some rest p0 y0
      have hsel : selectMin (p0 :: rest) = some q2 := by
        unfold selectMin
        rw [List.foldl_cons, hstep, heq]
        rfl
      rcases hdec with ⟨hq, hb⟩ | ⟨l1, l2, hsplit, hlt, hq2y, hl1⟩
      · subst hq; subst hb
        refine ⟨q2, b2, [], rest, hsel, rfl, hy, ?_, by simp⟩
        intro p hp yp hpy
        rcases List.mem_cons.mp hp with rfl | hp2
        · rw [hy] at hpy; injection hpy with hh; subst hh; exact le_rfl
        · exact hall p hp2 yp hpy
      · refine ⟨q2, b2, p0 :: l1, l2, hsel, by rw [hsplit, List.cons_append],
          hq2y, ?_, ?_⟩
        · intro p hp yp hpy
          rcases List.mem_cons.mp hp with rfl | hp2
          · rw [hy] at hpy; injection hpy with hh; subst hh; exact hle
          · exact hall p hp2 yp hpy
        · intro p hp yp hpy
          rcases List.mem_cons.mp hp with rfl | hp2
          · rw [hy] at hpy; injection hpy with hh; subst hh; exact hlt
          · exact hl1 p hp2 yp hpy

/-- **C8.** In the `max` (resp. `min`) bucket loop, whenever some point of
the bucket has a finite y, the chosen output is a single source point of
the bucket with the largest (resp. smallest) finite y, with a tie in y
resolved in favor of the earliest point (every earlier point with a finite
y is strictly smaller/greater); points with non-finite y never participate
and never abort the pass; and the bucket output of `sampleByBuckets` is
exactly that chosen point. -/
theorem C8_minmax_first_extremum (pts : List DataPoint)
    (h : ∃ p ∈ pts, p.y ≠ Option.none) :
    (∃ q yq l1 l2, selectMax pts = some q ∧ pts = l1 ++ q :: l2 ∧
      q.y = some yq ∧
      (∀ p ∈ pts, ∀ yp, p.y = some yp → yp ≤ yq) ∧
      (∀ p ∈ l1, ∀ yp, p.y = some yp → yp < yq)) ∧
    (∃ q yq l1 l2, selectMin pts = some q ∧ pts = l1 ++ q :: l2 ∧
      q.y = some yq ∧
      (∀ p ∈ pts, ∀ yp, p.y = some yp → yq ≤ yp) ∧
      (∀ p ∈ l1, ∀ yp, p.y = some yp → yq < yp)) ∧
    (∀ (data : List DataPoint) (t bucket : ℕ) (q : DataPoint),
      selectMax (bucketSlice data t bucket) = some q →
      bucketOut data t bucket .max = q) ∧
    (∀ (data : List DataPoint) (t bucket : ℕ) (q : DataPoint),
      selectMin (bucketSlice data t bucket) = some q →
      bucketOut data t bucket .min = q) := by
  refine ⟨selectMax_first_argmax pts h, selectMin_first_argmin pts h,
    fun data t bucket q hq => ?_, fun data t bucket q hq => ?_⟩
  · simp only [bucketOut, hq, Option.getD_some]
  · simp only [bucketOut, hq, Option.getD_some]

/-- Witness for C8 on the bucket `[(0,·non-finite), (1,5), (2,5), (3,1)]`:
the characterization holds (the max branch picks the point `(1,5)`, the
first of the two tied maxima). -/
theorem C8_witness :
    ∃ q yq l1 l2,
      selectMax [⟨some 0, none, none⟩, ⟨some 1, some 5, none⟩,
        ⟨some 2, some 5, none⟩, ⟨some 3, some 1, none⟩] = some q ∧
      [⟨some 0, none, none⟩, ⟨some 1, some 5, none⟩,
        ⟨some 2, some 5, none⟩, ⟨some 3, some 1, none⟩] = l1 ++ q :: l2 ∧
      q.y = some yq ∧
      (∀ p ∈ [⟨some 0, none, none⟩, ⟨some 1, some 5, none⟩,
        ⟨some 2, some 5, none⟩, (⟨some 3, some 1, none⟩ : DataPoint)],
        ∀ yp, p.y = some yp → yp ≤ yq) ∧
      (∀ p ∈ l1, ∀ yp, p.y = some yp → yp < yq) :=
  (C8_minmax_first_extremum
    [⟨some 0, none, none⟩, ⟨some 1, some 5, none⟩,
      ⟨some 2, some 5, none⟩, ⟨some 3, some 1, none⟩]
    ⟨⟨some 1, some 5, none⟩, by simp, by simp⟩).1

/-- The `average` loop accumulates nothing over points whose x or y is
non-finite. -/
theorem foldl_avgStep_excluded : ∀ (pts : List DataPoint),
    (∀ p ∈ pts, p.x = Option.none ∨ p.y = Option.none) →
    ∀ acc, pts.foldl avgStep acc = acc := by
  intro pts
  induction pts with
  | nil => intro _ acc; rfl
  | cons p rest ih =>
    intro hex acc
    rw [List.foldl_cons]
    have hstep : avgStep acc p = acc := by
      unfold avgStep
      rcases hex p (List.mem_cons_self p rest) with hx | hy
      · rw [hx]
      · rw [hy]
        rcases hxv : p.x with _ | xv <;> rfl
    rw [hstep]
    exact ih (fun p2 hp2 => hex p2 (List.mem_cons_of_mem p hp2)) acc

/-- An all-excluded bucket produces no `average` aggregate. -/
theorem averageBucket_excluded (pts : List DataPoint)
    (hex : ∀ p ∈ pts, p.x = Option.none ∨ p.y = Option.none) :
    averageBucket pts = none := by
  simp only [averageBucket]
  rw [foldl_avgStep_excluded pts hex ⟨0, 0, 0, 0, 0⟩]
  rfl

/-- The `max` loop never picks a champion over points with non-finite y. -/
theorem foldl_maxStep_excluded : ∀ (pts : List DataPoint),
    (∀ p ∈ pts, p.y = Option.none) →
    ∀ acc, pts.foldl maxStep acc = acc := by
  intro pts
  induction pts with
  | nil => intro _ acc; rfl
  | cons p rest ih =>
    intro hex acc
    rw [List.foldl_cons]
    have hstep : maxStep acc p = acc := by
      unfold maxStep
      rw [hex p (List.mem_cons_self p rest)]
    rw [hstep]
    exact ih (fun p2 hp2 => hex p2 (List.mem_cons_of_mem p hp2)) acc

/-- The `min` loop never picks a champion over points with non-finite y. -/
theorem foldl_minStep_excluded : ∀ (pts : List DataPoint),
    (∀ p ∈ pts, p.y = Option.none) →
    ∀ acc, pts.foldl minStep acc = acc := by
  intro pts
  induction pts with
  | nil => intro _ acc; rfl
  | cons p rest ih =>
    intro hex acc
    rw [List.foldl_cons]
    have hstep : minStep acc p = acc := by
      unfold minStep
      rw [hex p (List.mem_cons_self p rest)]
    rw [hstep]
    exact ih (fun p2 hp2 => hex p2 (List.mem_cons_of_mem p hp2)) acc

/-- The adjusted `rangeStart` of any interior bucket stays at most `n - 2`. -/
theorem bucketRange_fst_le (n t bucket : ℕ) :
    (bucketRange n t bucket).1 ≤ n - 2 := by
  simp only [bucketRange]
  split_ifs with hadj <;> dsimp only <;> omega

/-- The shape of `sampleByBuckets` in its main (bucketed) branch. -/
theorem sampleByBuckets_main (data : List DataPoint) (t : ℕ)
    (mode : BucketMode) (ht : 3 ≤ t) (hn : t < data.length) :
    sampleByBuckets data (t : ℚ) mode =
      data.take 1 ++
        (List.range (t - 2)).map (fun bucket => bucketOut data t bucket mode) ++
        data.drop (data.length - 1) := by
  have hthr : clampTargetPoints ((t : ℕ) : ℚ) = (t : ℤ) := by
    simp [clampTargetPoints]
  simp only [sampleByBuckets, hthr]
  rw [if_neg (by push_neg; exact ⟨by omega, by omega⟩), if_neg (by omega),
    if_neg (by omega), if_neg (by omega)]
  rw [show ((t : ℤ)).toNat = t from Int.toNat_natCast t]

/-- **C9.** In aggregate bucketing, when every point of an interior bucket
is excluded (x or y non-finite for `average`, y non-finite for
`max`/`min`), the bucket's output point is the unmodified source point at
the bucket's start index — the bucket is not omitted and not synthesized —
and the output length still equals the target. -/
theorem C9_excluded_bucket_fallback (data : List DataPoint) (t bucket : ℕ)
    (mode : BucketMode) (ht : 3 ≤ t) (hn : t < data.length)
    (hb : bucket < t - 2)
    (hex : ∀ p ∈ bucketSlice data t bucket, excludedFrom mode p) :
    (sampleByBuckets data (t : ℚ) mode).length = t ∧
    (bucketRange data.length t bucket).1 < data.length ∧
    (sampleByBuckets data (t : ℚ) mode)[bucket + 1]? =
      data[(bucketRange data.length t bucket).1]? := by
  have hmain := sampleByBuckets_main data t mode ht hn
  have hrs : (bucketRange data.length t bucket).1 < data.length :=
    lt_of_le_of_lt (bucketRange_fst_le data.length t bucket) (by omega)
  have hchosen : (match mode with
      | BucketMode.average => averageBucket (bucketSlice data t bucket)
      | BucketMode.max => selectMax (bucketSlice data t bucket)
      | BucketMode.min => selectMin (bucketSlice data t bucket)) = none := by
    cases mode with
    | average =>
      exact averageBucket_excluded _ (fun p hp => hex p hp)
    | max =>
      simp only [selectMax]
      rw [foldl_maxStep_excluded _ (fun p hp => hex p hp) none]
      rfl
    | min =>
      simp only [selectMin]
      rw [foldl_minStep_excluded _ (fun p hp => hex p hp) none]
      rfl
  have hout : bucketOut data t bucket mode =
      data.getD (bucketRange data.length t bucket).1 ⟨none, none, none⟩ := by
    simp only [bucketOut, hchosen, Option.getD_none]
  have htake : (data.take 1).length = 1 := by
    rw [List.length_take]; omega
  have hmaplen : ((List.range (t - 2)).map
      (fun bucket => bucketOut data t bucket mode)).length = t - 2 := by
    rw [List.length_map, List.length_range]
  refine ⟨?_, hrs, ?_⟩
  · rw [hmain]
    simp only [List.length_append, htake, hmaplen, List.length_drop]
    omega
  · rw [hmain]
    rw [List.getElem?_append_left
      (by rw [List.length_append, htake, hmaplen]; omega)]
    rw [List.getElem?_append_right (by rw [htake]; omega)]
    rw [htake]
    simp only [Nat.add_sub_cancel]
    simp only [List.getElem?_map, List.getElem?_range hb, Option.map_some']
    rw [hout]
    rw [List.getD_eq_getElem?_getD, List.getElem?_eq_getElem hrs]
    simp only [Option.getD_some]

/-- Witness for C9: a 5-point series whose interior bucket (indices 1–3)
has only non-finite y values, reduced to 3 points in `max` mode. -/
theorem C9_witness :
    (sampleByBuckets
      [⟨some 0, some 0, none⟩, ⟨some 1, none, none⟩, ⟨some 2, none, none⟩,
        ⟨some 3, none, none⟩, ⟨some 4, some 4, none⟩] ((3 : ℕ) : ℚ)
      .max).length = 3 ∧
    (bucketRange 5 3 0).1 < 5 ∧
    (sampleByBuckets
      [⟨some 0, some 0, none⟩, ⟨some 1, none, none⟩, ⟨some 2, none, none⟩,
        ⟨some 3, none, none⟩, ⟨some 4, some 4, none⟩] ((3 : ℕ) : ℚ)
      .max)[0 + 1]? =
      [⟨some 0, some 0, none⟩, ⟨some 1, none, none⟩, ⟨some 2, none, none⟩,
        ⟨some 3, none, none⟩,
        (⟨some 4, some 4, none⟩ : DataPoint)][(bucketRange 5 3 0).1]? := by
  have h := C9_excluded_bucket_fallback
    [⟨some 0, some 0, none⟩, ⟨some 1, none, none⟩, ⟨some 2, none, none⟩,
      ⟨some 3, none, none⟩, ⟨some 4, some 4, none⟩] 3 0 .max
    (by norm_num) (by norm_num) (by norm_num) ?hex
  · exact h
  · case hex =>
      intro p hp
      have hsl : bucketSlice
          [⟨some 0, some 0, none⟩, ⟨some 1, none, none⟩, ⟨some 2, none, none⟩,
            ⟨some 3, none, none⟩, ⟨some 4, some 4, none⟩] 3 0 =
          [⟨some 1, none, none⟩, ⟨some 2, none, none⟩, ⟨some 3, none, none⟩] := by
        have hbr : bucketRange 5 3 0 = (1, 4) := by norm_num [bucketRange]; omega
        simp only [bucketSlice]
        rw [show ([⟨some 0, some 0, none⟩, ⟨some 1, none, none⟩,
          ⟨some 2, none, none⟩, ⟨some 3, none, none⟩,
          (⟨some 4, some 4, none⟩ : DataPoint)] : List DataPoint).length = 5
          from rfl, hbr]
        rfl
      rw [hsl] at hp
      simp only [List.mem_cons, List.not_mem_nil, or_false] at hp
      rcases hp with rfl | rfl | rfl <;> rfl

/-- Witness for C1 at the concrete input `(10, 10.2)`. -/
theorem C1_witness :
    (10 : ℚ) ≤ 102/10 ∧
    (DEFAULT_MIN_SPAN ≤ (getViewport (setRange 10 (102/10))).stop -
        (getViewport (setRange 10 (102/10))).start ∧
      0 ≤ (getViewport (setRange 10 (102/10))).start ∧
      (getViewport (setRange 10 (102/10))).start ≤ 100 ∧
      0 ≤ (getViewport (setRange 10 (102/10))).stop ∧
      (getViewport (setRange 10 (102/10))).stop ≤ 100) :=
  ⟨by norm_num, C1_set_then_get_viewport_bounds 10 (102/10) (by norm_num)⟩

end ChartGPU
